import Mathlib

/-!
Shallow embedding of src/wordle.py (jgferrell/wordle) and verification of
the design spec's claims about `guess_generator`.

Modelling conventions:
- Python strings are `List Char`.
- Python generators are modelled by the finite list of all values they yield.
- `_permgen` (which joins `itertools.permutations` tuples into strings) is
  modelled by `List.permutations'`, which produces the same multiset of
  strings (every positional rearrangement, one entry per index ordering);
  all properties verified here are insensitive to the enumeration order.
- `_combogen` (which joins `itertools.combinations` tuples into strings) is
  modelled by `List.sublistsLen`, which likewise produces one string per
  index subset, i.e. all subsequences of the given length.
- A Python exception that is raised on the first `next()` call, before any
  element is yielded, is modelled by `Except.error`; `Except.ok l` means
  the generator runs to exhaustion yielding exactly the strings of `l`.
-/

namespace Wordle

/-- Models Python `guess.replace('?', letter, 1)` (line 74 of wordle.py):
replace the first occurrence of `'?'`, if any, by the given letter. -/
def replaceFirst : List Char → Char → List Char
  | [], _ => []
  | c :: cs, l => if c = '?' then l :: cs else c :: replaceFirst cs l

/-- Models lines 72-74 of `guess_generator`: starting from the previous
guess (the pattern), replace the first remaining `'?'` by each letter of
the permutation in turn. -/
def substitute (pattern perm : List Char) : List Char :=
  perm.foldl replaceFirst pattern

/-- Models `_permgen` (lines 25-28): `itertools.permutations` with each
tuple joined into a string. `List.permutations'` yields the same multiset
of strings (one entry per index ordering, factorial many in total); only
the enumeration order differs, which none of the verified properties
depend on. -/
def permgen (p : List Char) : List (List Char) :=
  p.permutations'

/-- Models `_combogen` (lines 30-33) at a non-negative size `r`:
`itertools.combinations` with each tuple joined into a string, i.e. all
subsequences of `p` of length `r`, one per index subset. -/
def combogen (p : List Char) (r : Nat) : List (List Char) :=
  List.sublistsLen r p

/-- Models the `combos_seen` loop of lines 57-63: process the combination
strings in order, keeping the first occurrence of each string value and
skipping any string already seen. -/
def dedupKeepFirst : List (List Char) → List (List Char) → List (List Char)
  | _, [] => []
  | seen, c :: rest =>
    if c ∈ seen then dedupKeepFirst seen rest
    else c :: dedupKeepFirst (c :: seen) rest

/-- The combinations that survive the seen-set check of lines 57-63 (the
selection phase) and have their permutations generated. -/
def survivingCombos (available_letters : List Char) (k : Nat) : List (List Char) :=
  dedupKeepFirst [] (combogen available_letters k)

/-- Models line 75: `dictionary is None or guess in dictionary`. A
dictionary is any membership test on strings. -/
def dictOk : Option (List Char → Bool) → List Char → Bool
  | none, _ => true
  | some d, g => d g

/-- Models lines 67-76: the global `perms_seen` set and the yield loop.
First argument of the recursion: the remaining permutation strings;
second: the strings already seen. -/
def yieldLoop (pattern : List Char) (dict : Option (List Char → Bool)) :
    List (List Char) → List (List Char) → List (List Char)
  | [], _ => []
  | w :: rest, seen =>
    if w ∈ seen then yieldLoop pattern dict rest seen
    else if dictOk dict (substitute pattern w) then
      substitute pattern w :: yieldLoop pattern dict rest (w :: seen)
    else yieldLoop pattern dict rest (w :: seen)

/-- The Python exception the generator can surface. -/
inductive PyError
  | valueError
deriving DecidableEq

/-- Models `guess_generator` (lines 35-76 of wordle.py).

When the number of `'?'` in `previous_guess` equals the length of
`required_letters`, permutations of `required_letters` drive the yield
loop (lines 54-55).  Otherwise `itertools.combinations(available_letters,
n_unknown - n_required)` is consulted (lines 57-64); if that size is
negative, Python raises `ValueError` when the first element of the
generator is requested, before anything is yielded — modelled by
`Except.error PyError.valueError`.  Otherwise the first-occurrence
deduplicated combinations each contribute the permutations of
`combo ++ required_letters`, chained in order (line 64), and the yield
loop runs over the chain.  Creating the generator object itself never
raises (Python defers the generator body). -/
def guess_generator (previous_guess available_letters required_letters : List Char)
    (dictionary : Option (List Char → Bool)) : Except PyError (List (List Char)) :=
  if previous_guess.count '?' = required_letters.length then
    Except.ok (yieldLoop previous_guess dictionary (permgen required_letters) [])
  else if previous_guess.count '?' < required_letters.length then
    Except.error PyError.valueError
  else
    Except.ok (yieldLoop previous_guess dictionary
      (((survivingCombos available_letters
          (previous_guess.count '?' - required_letters.length)).map
        (fun combo => permgen (combo ++ required_letters))).flatten) [])

/-- Spec-side definition (spec section 4.1, step 3): substitute the letters
into the pattern's unknown positions left-to-right; the first `'?'`
receives the first letter of the ordering, and so on.  Letters beyond the
number of `'?'` slots are unused; `'?'` slots beyond the ordering's length
are left as `'?'`. -/
def substUnknowns : List Char → List Char → List Char
  | [], _ => []
  | c :: ps, ls =>
    if c = '?' then
      match ls with
      | [] => c :: ps
      | l :: ls2 => l :: substUnknowns ps ls2
    else
      c :: substUnknowns ps ls

/-- The letters a guess carries at the pattern's `'?'` positions, read
left-to-right. -/
def unknownSlots : List Char → List Char → List Char
  | [], _ => []
  | _, [] => []
  | c :: ps, x :: gs =>
    if c = '?' then x :: unknownSlots ps gs else unknownSlots ps gs

/-- Spec-side check (spec section 8, constraint preservation): same length,
and every non-`'?'` character of the pattern appears unchanged at the same
position in the guess. -/
def knownPreserved : List Char → List Char → Bool
  | [], [] => true
  | [], _ :: _ => false
  | _ :: _, [] => false
  | c :: ps, x :: gs => (c == '?' || x == c) && knownPreserved ps gs

/-- A concrete one-word dictionary used to exercise dictionary filtering on
concrete inputs. -/
def sampleDict : List Char → Bool :=
  fun g => decide (g = ['a', 'b'])

theorem foldl_replaceFirst_nil : ∀ w : List Char, List.foldl replaceFirst [] w = []
  | [] => rfl
  | _ :: w => foldl_replaceFirst_nil w

theorem foldl_replaceFirst_cons {c : Char} (hc : c ≠ '?') :
    ∀ (w ps : List Char),
      List.foldl replaceFirst (c :: ps) w = c :: List.foldl replaceFirst ps w := by
  intro w
  induction w with
  | nil => intro ps; rfl
  | cons l w ih =>
    intro ps
    have h1 : replaceFirst (c :: ps) l = c :: replaceFirst ps l := by
      simp [replaceFirst, hc]
    rw [List.foldl_cons, h1, ih, List.foldl_cons]

theorem substitute_eq_substUnknowns : ∀ (p w : List Char), '?' ∉ w →
    substitute p w = substUnknowns p w := by
  intro p
  induction p with
  | nil =>
    intro w _
    simp [substitute, substUnknowns, foldl_replaceFirst_nil]
  | cons c ps ih =>
    intro w hw
    by_cases hc : c = '?'
    · subst hc
      cases w with
      | nil => simp [substitute, substUnknowns]
      | cons l w2 =>
        have hl : l ≠ '?' := fun h => hw (by simp [h])
        have hw2 : '?' ∉ w2 := fun h => hw (List.mem_cons_of_mem _ h)
        have h1 : substitute ('?' :: ps) (l :: w2)
            = List.foldl replaceFirst (l :: ps) w2 := by
          simp [substitute, replaceFirst]
        rw [h1, foldl_replaceFirst_cons hl]
        have h2 := ih w2 hw2
        simp only [substitute] at h2
        simp [substUnknowns, h2]
    · have h1 : substitute (c :: ps) w = c :: List.foldl replaceFirst ps w :=
        foldl_replaceFirst_cons hc w ps
      rw [h1]
      have h2 := ih w hw
      simp only [substitute] at h2
      simp [substUnknowns, hc, h2]

theorem length_substUnknowns : ∀ (p w : List Char),
    (substUnknowns p w).length = p.length := by
  intro p
  induction p with
  | nil => intro w; rfl
  | cons c ps ih =>
    intro w
    by_cases hc : c = '?'
    · subst hc
      cases w with
      | nil => simp [substUnknowns]
      | cons l w2 => simp [substUnknowns, ih]
    · simp [substUnknowns, hc, ih]

theorem unknownSlots_substUnknowns : ∀ (p w : List Char),
    w.length = p.count '?' → unknownSlots p (substUnknowns p w) = w := by
  intro p
  induction p with
  | nil =>
    intro w hw
    simp only [List.count_nil] at hw
    rw [List.length_eq_zero] at hw
    subst hw
    rfl
  | cons c ps ih =>
    intro w hw
    by_cases hc : c = '?'
    · subst hc
      rw [List.count_cons_self] at hw
      cases w with
      | nil => simp at hw
      | cons l w2 =>
        simp only [List.length_cons, Nat.add_right_cancel_iff] at hw
        simp [substUnknowns, unknownSlots, ih w2 hw]
    · rw [List.count_cons_of_ne (fun h => hc h.symm)] at hw
      simp [substUnknowns, unknownSlots, hc, ih w hw]

theorem substUnknowns_inj {p w1 w2 : List Char}
    (h1 : w1.length = p.count '?') (h2 : w2.length = p.count '?')
    (heq : substUnknowns p w1 = substUnknowns p w2) : w1 = w2 := by
  have e1 := unknownSlots_substUnknowns p w1 h1
  have e2 := unknownSlots_substUnknowns p w2 h2
  rw [← e1, ← e2, heq]

theorem knownPreserved_refl : ∀ p : List Char, knownPreserved p p = true := by
  intro p
  induction p with
  | nil => rfl
  | cons c ps ih => simp [knownPreserved, ih]

theorem knownPreserved_replaceFirst : ∀ {g p : List Char},
    knownPreserved p g = true → ∀ c : Char, knownPreserved p (replaceFirst g c) = true := by
  intro g
  induction g with
  | nil =>
    intro p h c
    cases p with
    | nil => rfl
    | cons _ _ => simp [knownPreserved] at h
  | cons x gs ih =>
    intro p h c
    cases p with
    | nil => simp [knownPreserved] at h
    | cons c0 ps =>
      simp only [knownPreserved, Bool.and_eq_true, Bool.or_eq_true, beq_iff_eq] at h
      obtain ⟨hhead, htail⟩ := h
      by_cases hx : x = '?'
      · subst hx
        have hc0 : c0 = '?' := by
          rcases hhead with h1 | h1
          · exact h1
          · exact h1.symm
        simp [replaceFirst, knownPreserved, hc0, htail]
      · rw [show replaceFirst (x :: gs) c = x :: replaceFirst gs c by
          simp [replaceFirst, hx]]
        simp only [knownPreserved, Bool.and_eq_true, Bool.or_eq_true, beq_iff_eq]
        exact ⟨hhead, ih htail c⟩

theorem knownPreserved_foldl (p : List Char) : ∀ (w g : List Char),
    knownPreserved p g = true →
    knownPreserved p (List.foldl replaceFirst g w) = true := by
  intro w
  induction w with
  | nil => intro g h; exact h
  | cons l w ih =>
    intro g h
    rw [List.foldl_cons]
    exact ih _ (knownPreserved_replaceFirst h l)

theorem knownPreserved_substitute (p w : List Char) :
    knownPreserved p (substitute p w) = true :=
  knownPreserved_foldl p w p (knownPreserved_refl p)

theorem knownPreserved_length : ∀ (p g : List Char),
    knownPreserved p g = true → g.length = p.length := by
  intro p
  induction p with
  | nil =>
    intro g h
    cases g with
    | nil => rfl
    | cons _ _ => simp [knownPreserved] at h
  | cons c ps ih =>
    intro g h
    cases g with
    | nil => simp [knownPreserved] at h
    | cons x gs =>
      simp only [knownPreserved, Bool.and_eq_true] at h
      simp [ih gs h.2]

theorem knownPreserved_get : ∀ (p g : List Char), knownPreserved p g = true →
    ∀ (i : Nat) (hp : i < p.length) (hg : i < g.length),
      p.get ⟨i, hp⟩ ≠ '?' → g.get ⟨i, hg⟩ = p.get ⟨i, hp⟩ := by
  intro p
  induction p with
  | nil =>
    intro g h i hp
    exact absurd hp (by simp)
  | cons c ps ih =>
    intro g h i hp hg
    cases g with
    | nil => simp [knownPreserved] at h
    | cons x gs =>
      simp only [knownPreserved, Bool.and_eq_true, Bool.or_eq_true, beq_iff_eq] at h
      obtain ⟨hhead, htail⟩ := h
      cases i with
      | zero =>
        intro hne
        simp only [List.get] at hne ⊢
        rcases hhead with h1 | h1
        · exact absurd h1 hne
        · exact h1
      | succ j =>
        intro hne
        simp only [List.get] at hne ⊢
        exact ih gs htail j (Nat.lt_of_succ_lt_succ hp) (Nat.lt_of_succ_lt_succ hg) hne

theorem mem_yieldLoop {p : List Char} {d : Option (List Char → Bool)} :
    ∀ (perms seen : List (List Char)) (g : List Char),
      g ∈ yieldLoop p d perms seen ↔
        ∃ w, w ∈ perms ∧ w ∉ seen ∧ g = substitute p w ∧
          dictOk d (substitute p w) = true := by
  intro perms
  induction perms with
  | nil => intro seen g; simp [yieldLoop]
  | cons v rest ih =>
    intro seen g
    by_cases hv : v ∈ seen
    · rw [show yieldLoop p d (v :: rest) seen = yieldLoop p d rest seen by
        simp [yieldLoop, hv]]
      rw [ih]
      constructor
      · rintro ⟨w, hw, hws, hg, hdw⟩
        exact ⟨w, List.mem_cons_of_mem _ hw, hws, hg, hdw⟩
      · rintro ⟨w, hw, hws, hg, hdw⟩
        rcases List.mem_cons.mp hw with h | h
        · subst h; exact absurd hv hws
        · exact ⟨w, h, hws, hg, hdw⟩
    · by_cases hd : dictOk d (substitute p v) = true
      · rw [show yieldLoop p d (v :: rest) seen
            = substitute p v :: yieldLoop p d rest (v :: seen) by
          simp [yieldLoop, hv, hd]]
        constructor
        · intro hmem
          rcases List.mem_cons.mp hmem with h | h
          · exact ⟨v, List.mem_cons_self _ _, hv, h, hd⟩
          · obtain ⟨w, hw, hws, hg, hdw⟩ := (ih _ g).mp h
            exact ⟨w, List.mem_cons_of_mem _ hw,
              fun h2 => hws (List.mem_cons_of_mem _ h2), hg, hdw⟩
        · rintro ⟨w, hw, hws, hg, hdw⟩
          rcases List.mem_cons.mp hw with h | h
          · subst h
            exact List.mem_cons.mpr (Or.inl hg)
          · by_cases hwv : w = v
            · subst hwv
              exact List.mem_cons.mpr (Or.inl hg)
            · refine List.mem_cons.mpr (Or.inr ((ih _ g).mpr ⟨w, h, ?_, hg, hdw⟩))
              intro h2
              rcases List.mem_cons.mp h2 with h3 | h3
              · exact hwv h3
              · exact hws h3
      · rw [show yieldLoop p d (v :: rest) seen = yieldLoop p d rest (v :: seen) by
          simp [yieldLoop, hv, hd]]
        rw [ih]
        constructor
        · rintro ⟨w, hw, hws, hg, hdw⟩
          exact ⟨w, List.mem_cons_of_mem _ hw,
            fun h2 => hws (List.mem_cons_of_mem _ h2), hg, hdw⟩
        · rintro ⟨w, hw, hws, hg, hdw⟩
          rcases List.mem_cons.mp hw with h | h
          · subst h; exact absurd hdw hd
          · by_cases hwv : w = v
            · subst hwv; exact absurd hdw hd
            · refine ⟨w, h, ?_, hg, hdw⟩
              intro h2
              rcases List.mem_cons.mp h2 with h3 | h3
              · exact hwv h3
              · exact hws h3

theorem nodup_yieldLoop {p : List Char} {d : Option (List Char → Bool)} :
    ∀ (perms : List (List Char)),
      (∀ w1 ∈ perms, ∀ w2 ∈ perms, substitute p w1 = substitute p w2 → w1 = w2) →
      ∀ seen, (yieldLoop p d perms seen).Nodup := by
  intro perms
  induction perms with
  | nil => intro _ seen; simp [yieldLoop]
  | cons v rest ih =>
    intro inj seen
    have inj2 : ∀ w1 ∈ rest, ∀ w2 ∈ rest, substitute p w1 = substitute p w2 → w1 = w2 :=
      fun w1 h1 w2 h2 =>
        inj w1 (List.mem_cons_of_mem _ h1) w2 (List.mem_cons_of_mem _ h2)
    by_cases hv : v ∈ seen
    · rw [show yieldLoop p d (v :: rest) seen = yieldLoop p d rest seen by
        simp [yieldLoop, hv]]
      exact ih inj2 seen
    · by_cases hd : dictOk d (substitute p v) = true
      · rw [show yieldLoop p d (v :: rest) seen
            = substitute p v :: yieldLoop p d rest (v :: seen) by
          simp [yieldLoop, hv, hd]]
        refine List.nodup_cons.mpr ⟨?_, ih inj2 _⟩
        intro hmem
        obtain ⟨w, hw, hws, hg, _⟩ := (mem_yieldLoop _ _ _).mp hmem
        have hwv : w = v :=
          inj w (List.mem_cons_of_mem _ hw) v (List.mem_cons_self _ _) hg.symm
        subst hwv
        exact hws (List.mem_cons_self _ _)
      · rw [show yieldLoop p d (v :: rest) seen = yieldLoop p d rest (v :: seen) by
          simp [yieldLoop, hv, hd]]
        exact ih inj2 _

theorem mem_dedupKeepFirst : ∀ (l seen : List (List Char)) (x : List Char),
    x ∈ dedupKeepFirst seen l ↔ x ∈ l ∧ x ∉ seen := by
  intro l
  induction l with
  | nil => intro seen x; simp [dedupKeepFirst]
  | cons c rest ih =>
    intro seen x
    by_cases hc : c ∈ seen
    · rw [show dedupKeepFirst seen (c :: rest) = dedupKeepFirst seen rest by
        simp [dedupKeepFirst, hc]]
      rw [ih]
      constructor
      · rintro ⟨h1, h2⟩
        exact ⟨List.mem_cons_of_mem _ h1, h2⟩
      · rintro ⟨h1, h2⟩
        rcases List.mem_cons.mp h1 with h | h
        · subst h; exact absurd hc h2
        · exact ⟨h, h2⟩
    · rw [show dedupKeepFirst seen (c :: rest) = c :: dedupKeepFirst (c :: seen) rest by
        simp [dedupKeepFirst, hc]]
      constructor
      · intro hm
        rcases List.mem_cons.mp hm with h | h
        · subst h; exact ⟨List.mem_cons_self _ _, hc⟩
        · obtain ⟨h1, h2⟩ := (ih _ _).mp h
          exact ⟨List.mem_cons_of_mem _ h1, fun hs => h2 (List.mem_cons_of_mem _ hs)⟩
      · rintro ⟨h1, h2⟩
        by_cases hxc : x = c
        · subst hxc; exact List.mem_cons_self _ _
        · rcases List.mem_cons.mp h1 with h | h
          · exact absurd h hxc
          · refine List.mem_cons_of_mem _ ((ih _ _).mpr ⟨h, ?_⟩)
            intro hs
            rcases List.mem_cons.mp hs with h3 | h3
            · exact hxc h3
            · exact h2 h3

theorem nodup_dedupKeepFirst : ∀ (l seen : List (List Char)),
    (dedupKeepFirst seen l).Nodup := by
  intro l
  induction l with
  | nil => intro seen; simp [dedupKeepFirst]
  | cons c rest ih =>
    intro seen
    by_cases hc : c ∈ seen
    · rw [show dedupKeepFirst seen (c :: rest) = dedupKeepFirst seen rest by
        simp [dedupKeepFirst, hc]]
      exact ih seen
    · rw [show dedupKeepFirst seen (c :: rest) = c :: dedupKeepFirst (c :: seen) rest by
        simp [dedupKeepFirst, hc]]
      refine List.nodup_cons.mpr ⟨?_, ih _⟩
      intro hm
      exact ((mem_dedupKeepFirst _ _ _).mp hm).2 (List.mem_cons_self _ _)

theorem guess_generator_eq_ok_of_eq {p a pr : List Char}
    {d : Option (List Char → Bool)} (h : p.count '?' = pr.length) :
    guess_generator p a pr d = Except.ok (yieldLoop p d (permgen pr) []) := by
  simp [guess_generator, h]

theorem guess_generator_eq_error {p a pr : List Char}
    {d : Option (List Char → Bool)} (h : p.count '?' < pr.length) :
    guess_generator p a pr d = Except.error PyError.valueError := by
  have hne : p.count '?' ≠ pr.length := Nat.ne_of_lt h
  simp [guess_generator, hne, h]

theorem guess_generator_eq_ok_of_gt {p a pr : List Char}
    {d : Option (List Char → Bool)} (h : pr.length < p.count '?') :
    guess_generator p a pr d = Except.ok (yieldLoop p d
      (((survivingCombos a (p.count '?' - pr.length)).map
        (fun combo => permgen (combo ++ pr))).flatten) []) := by
  have hne : p.count '?' ≠ pr.length := (Nat.ne_of_lt h).symm
  have hnlt : ¬ p.count '?' < pr.length := Nat.not_lt.mpr (Nat.le_of_lt h)
  simp [guess_generator, hne, hnlt]

theorem mem_gt_branch_perms {a pr : List Char} {k : Nat} {w : List Char} :
    (w ∈ ((survivingCombos a k).map (fun combo => permgen (combo ++ pr))).flatten) ↔
      ∃ combo, combo.Sublist a ∧ combo.length = k ∧ w.Perm (combo ++ pr) := by
  rw [List.mem_flatten]
  constructor
  · rintro ⟨l, hl, hw⟩
    obtain ⟨combo, hcombo, rfl⟩ := List.mem_map.mp hl
    rw [survivingCombos] at hcombo
    have h1 := ((mem_dedupKeepFirst _ _ _).mp hcombo).1
    rw [combogen] at h1
    have h2 := List.mem_sublistsLen.mp h1
    exact ⟨combo, h2.1, h2.2, List.mem_permutations'.mp hw⟩
  · rintro ⟨combo, hsub, hlen, hperm⟩
    refine ⟨permgen (combo ++ pr), List.mem_map_of_mem _ ?_,
      List.mem_permutations'.mpr hperm⟩
    rw [survivingCombos]
    refine (mem_dedupKeepFirst _ _ _).mpr ⟨?_, by simp⟩
    rw [combogen]
    exact List.mem_sublistsLen.mpr ⟨hsub, hlen⟩

theorem exists_pool_of_mem {p a pr : List Char} {d : Option (List Char → Bool)}
    {L : List (List Char)} {g : List Char}
    (hok : guess_generator p a pr d = Except.ok L) (hg : g ∈ L) :
    pr.length ≤ p.count '?' ∧
    ∃ w combo, combo.Sublist a ∧ combo.length = p.count '?' - pr.length ∧
      w.Perm (combo ++ pr) ∧ g = substitute p w ∧
      dictOk d (substitute p w) = true := by
  rcases Nat.lt_trichotomy (p.count '?') pr.length with hlt | heq | hgt
  · rw [guess_generator_eq_error hlt] at hok
    exact absurd hok (by simp)
  · rw [guess_generator_eq_ok_of_eq heq] at hok
    injection hok with hok
    subst hok
    obtain ⟨w, hw, _, hgw, hdw⟩ := (mem_yieldLoop _ _ _).mp hg
    rw [permgen, List.mem_permutations'] at hw
    refine ⟨Nat.le_of_eq heq.symm, w, [], List.nil_sublist a, by simp [heq], ?_, hgw, hdw⟩
    simpa using hw
  · rw [guess_generator_eq_ok_of_gt hgt] at hok
    injection hok with hok
    subst hok
    obtain ⟨w, hw, _, hgw, hdw⟩ := (mem_yieldLoop _ _ _).mp hg
    obtain ⟨combo, hsub, hlen, hperm⟩ := mem_gt_branch_perms.mp hw
    exact ⟨Nat.le_of_lt hgt, w, combo, hsub, hlen, hperm, hgw, hdw⟩

theorem pool_length {p pr combo w : List Char} (hle : pr.length ≤ p.count '?')
    (hlen : combo.length = p.count '?' - pr.length) (hperm : w.Perm (combo ++ pr)) :
    w.length = p.count '?' := by
  rw [hperm.length_eq, List.length_append, hlen, Nat.sub_add_cancel hle]

theorem pool_noQ {a pr combo w : List Char} (ha : '?' ∉ a) (hpr : '?' ∉ pr)
    (hsub : combo.Sublist a) (hperm : w.Perm (combo ++ pr)) : '?' ∉ w := by
  intro hmem
  rcases List.mem_append.mp (hperm.mem_iff.mp hmem) with h | h
  · exact ha (hsub.subset h)
  · exact hpr h

theorem yieldLoop_some_eq_filter {p : List Char} {d : List Char → Bool} :
    ∀ (perms seen : List (List Char)),
      yieldLoop p (some d) perms seen = (yieldLoop p none perms seen).filter d := by
  intro perms
  induction perms with
  | nil => intro seen; simp [yieldLoop]
  | cons v rest ih =>
    intro seen
    by_cases hv : v ∈ seen
    · simp [yieldLoop, hv, ih]
    · by_cases hd : d (substitute p v) = true
      · simp [yieldLoop, hv, dictOk, hd, ih, List.filter_cons]
      · simp [yieldLoop, hv, dictOk, hd, ih, List.filter_cons]

theorem guess_generator_some_eq_filter (p a pr : List Char) (d : List Char → Bool) :
    guess_generator p a pr (some d)
      = Except.map (fun L => L.filter d) (guess_generator p a pr none) := by
  rcases Nat.lt_trichotomy (p.count '?') pr.length with hlt | heq | hgt
  · rw [guess_generator_eq_error hlt, guess_generator_eq_error hlt]
    rfl
  · rw [guess_generator_eq_ok_of_eq heq, guess_generator_eq_ok_of_eq heq]
    simp [Except.map, yieldLoop_some_eq_filter]
  · rw [guess_generator_eq_ok_of_gt hgt, guess_generator_eq_ok_of_gt hgt]
    simp [Except.map, yieldLoop_some_eq_filter]

/-- Claim C1: for every call with the number of pattern placeholders equal
to the number of present letters and no dictionary, the yielded guesses are
exactly the distinct permutations of the multiset of present letters
substituted left-to-right into the pattern's unknown positions, and their
number is the number of distinct permutations of that multiset.  Inputs
range over the spec's declared domain: present is a string of letters, so
it does not contain the placeholder character. -/
theorem C1_completeness (p a pr : List Char) (hpr : '?' ∉ pr)
    (hur : p.count '?' = pr.length) :
    ∃ L, guess_generator p a pr none = Except.ok L ∧
      (∀ g, g ∈ L ↔ ∃ w, w.Perm pr ∧ g = substUnknowns p w) ∧
      L.Nodup ∧ L.length = pr.permutations.dedup.length := by
  have hnoQ : ∀ w : List Char, w.Perm pr → '?' ∉ w :=
    fun w hw h => hpr (hw.mem_iff.mp h)
  have hlenw : ∀ w : List Char, w.Perm pr → w.length = p.count '?' :=
    fun w hw => by rw [hw.length_eq, hur]
  have injw : ∀ w1 w2 : List Char, w1.Perm pr → w2.Perm pr →
      substitute p w1 = substitute p w2 → w1 = w2 := by
    intro w1 w2 h1 h2 heq
    rw [substitute_eq_substUnknowns _ _ (hnoQ w1 h1),
        substitute_eq_substUnknowns _ _ (hnoQ w2 h2)] at heq
    exact substUnknowns_inj (hlenw w1 h1) (hlenw w2 h2) heq
  have hmem : ∀ g, g ∈ yieldLoop p none (permgen pr) [] ↔
      ∃ w, w.Perm pr ∧ g = substUnknowns p w := by
    intro g
    rw [mem_yieldLoop]
    constructor
    · rintro ⟨w, hw, _, hg, _⟩
      rw [permgen, List.mem_permutations'] at hw
      exact ⟨w, hw, by rw [hg, substitute_eq_substUnknowns _ _ (hnoQ w hw)]⟩
    · rintro ⟨w, hw, hg⟩
      refine ⟨w, ?_, by simp, ?_, rfl⟩
      · rw [permgen, List.mem_permutations']
        exact hw
      · rw [hg, substitute_eq_substUnknowns _ _ (hnoQ w hw)]
  have hnodup : (yieldLoop p none (permgen pr) []).Nodup := by
    refine nodup_yieldLoop _ ?_ []
    intro w1 h1 w2 h2 heq
    rw [permgen, List.mem_permutations'] at h1 h2
    exact injw w1 w2 h1 h2 heq
  refine ⟨yieldLoop p none (permgen pr) [],
    guess_generator_eq_ok_of_eq hur, hmem, hnodup, ?_⟩
  have hMnodup : (pr.permutations.dedup.map (substitute p)).Nodup := by
    refine List.Nodup.map_on ?_ (List.nodup_dedup _)
    intro w1 h1 w2 h2 heq
    rw [List.mem_dedup, List.mem_permutations] at h1 h2
    exact injw w1 w2 h1 h2 heq
  have hFin : (yieldLoop p none (permgen pr) []).toFinset
      = (pr.permutations.dedup.map (substitute p)).toFinset := by
    apply Finset.ext
    intro g
    rw [List.mem_toFinset, List.mem_toFinset, hmem, List.mem_map]
    constructor
    · rintro ⟨w, hw, hg⟩
      refine ⟨w, ?_, ?_⟩
      · rw [List.mem_dedup, List.mem_permutations]
        exact hw
      · rw [substitute_eq_substUnknowns _ _ (hnoQ w hw), hg]
    · rintro ⟨w, hw, hg⟩
      rw [List.mem_dedup, List.mem_permutations] at hw
      exact ⟨w, hw, by rw [← hg, substitute_eq_substUnknowns _ _ (hnoQ w hw)]⟩
  calc (yieldLoop p none (permgen pr) []).length
      = (yieldLoop p none (permgen pr) []).toFinset.card :=
        (List.toFinset_card_of_nodup hnodup).symm
    _ = (pr.permutations.dedup.map (substitute p)).toFinset.card := by rw [hFin]
    _ = (pr.permutations.dedup.map (substitute p)).length :=
        List.toFinset_card_of_nodup hMnodup
    _ = pr.permutations.dedup.length := List.length_map _ _

/-- Claim C1 witness: concrete instance with a repeated present letter. -/
theorem C1_completeness_witness :
    ('?' ∉ (['a', 'a'] : List Char)) ∧
    (['x', '?', '?'] : List Char).count '?' = (['a', 'a'] : List Char).length ∧
    ∃ L, guess_generator ['x', '?', '?'] [] ['a', 'a'] none = Except.ok L ∧
      (∀ g, g ∈ L ↔ ∃ w, w.Perm (['a', 'a'] : List Char) ∧
        g = substUnknowns ['x', '?', '?'] w) ∧
      L.Nodup ∧ L.length = (['a', 'a'] : List Char).permutations.dedup.length :=
  ⟨by decide, by decide,
    C1_completeness ['x', '?', '?'] [] ['a', 'a'] (by decide) (by decide)⟩

/-- Claim C2: over the spec's input domain (available and present are
strings of letters, not placeholders), a single invocation never yields
the same guess twice: the yielded list has pairwise distinct entries, for
any pattern, available, present and dictionary. -/
theorem C2_no_duplicates (p a pr : List Char) (d : Option (List Char → Bool))
    (ha : '?' ∉ a) (hpr : '?' ∉ pr) :
    ∀ L, guess_generator p a pr d = Except.ok L → L.Nodup := by
  intro L hok
  rcases Nat.lt_trichotomy (p.count '?') pr.length with hlt | heq | hgt
  · rw [guess_generator_eq_error hlt] at hok
    exact absurd hok (by simp)
  · rw [guess_generator_eq_ok_of_eq heq] at hok
    injection hok with hok
    subst hok
    refine nodup_yieldLoop _ ?_ []
    intro w1 h1 w2 h2 heq2
    rw [permgen, List.mem_permutations'] at h1 h2
    have n1 : '?' ∉ w1 := fun h => hpr (h1.mem_iff.mp h)
    have n2 : '?' ∉ w2 := fun h => hpr (h2.mem_iff.mp h)
    rw [substitute_eq_substUnknowns _ _ n1, substitute_eq_substUnknowns _ _ n2] at heq2
    exact substUnknowns_inj (by rw [h1.length_eq, heq]) (by rw [h2.length_eq, heq]) heq2
  · rw [guess_generator_eq_ok_of_gt hgt] at hok
    injection hok with hok
    subst hok
    refine nodup_yieldLoop _ ?_ []
    intro w1 h1 w2 h2 heq2
    obtain ⟨c1, hs1, hl1, hp1⟩ := mem_gt_branch_perms.mp h1
    obtain ⟨c2, hs2, hl2, hp2⟩ := mem_gt_branch_perms.mp h2
    have n1 := pool_noQ ha hpr hs1 hp1
    have n2 := pool_noQ ha hpr hs2 hp2
    rw [substitute_eq_substUnknowns _ _ n1, substitute_eq_substUnknowns _ _ n2] at heq2
    exact substUnknowns_inj (pool_length (Nat.le_of_lt hgt) hl1 hp1)
      (pool_length (Nat.le_of_lt hgt) hl2 hp2) heq2

/-- Claim C2 witness: concrete instance in the combination branch. -/
theorem C2_no_duplicates_witness :
    ('?' ∉ (['b', 'a'] : List Char)) ∧ ('?' ∉ ([] : List Char)) ∧
    ∃ L, guess_generator ['?', '?'] ['b', 'a'] [] none = Except.ok L ∧ L.Nodup :=
  ⟨by decide, by decide, _, rfl,
    C2_no_duplicates ['?', '?'] ['b', 'a'] [] none (by decide) (by decide) _ rfl⟩

/-- Claim C3: over the spec's input domain with at least as many unknown
slots as present letters, every yielded guess has the pattern's length,
agrees with the pattern at every non-placeholder position, carries at the
placeholder positions exactly the multiset of present letters together
with some sub-multiset of available of size u - r (exactly present when
u = r), and passes the dictionary whenever one was supplied. -/
theorem C3_output_soundness (p a pr : List Char) (d : Option (List Char → Bool))
    (ha : '?' ∉ a) (hpr : '?' ∉ pr) (_hur : pr.length ≤ p.count '?') :
    ∀ L, guess_generator p a pr d = Except.ok L → ∀ g ∈ L,
      g.length = p.length ∧ knownPreserved p g = true ∧
      (∃ combo, combo.Sublist a ∧ combo.length = p.count '?' - pr.length ∧
        (unknownSlots p g).Perm (combo ++ pr)) ∧
      (p.count '?' = pr.length → (unknownSlots p g).Perm pr) ∧
      dictOk d g = true := by
  intro L hok g hg
  obtain ⟨hle, w, combo, hsub, hlen, hperm, hgw, hdw⟩ := exists_pool_of_mem hok hg
  have hnoQ : '?' ∉ w := pool_noQ ha hpr hsub hperm
  have hwlen : w.length = p.count '?' := pool_length hle hlen hperm
  have hgsub : g = substUnknowns p w := by
    rw [hgw, substitute_eq_substUnknowns _ _ hnoQ]
  have hslots : unknownSlots p g = w := by
    rw [hgsub, unknownSlots_substUnknowns _ _ hwlen]
  refine ⟨?_, ?_, ⟨combo, hsub, hlen, ?_⟩, ?_, ?_⟩
  · rw [hgsub, length_substUnknowns]
  · rw [hgw]
    exact knownPreserved_substitute p w
  · rw [hslots]
    exact hperm
  · intro hequ
    rw [hslots]
    have hc0 : combo.length = 0 := by rw [hlen, hequ, Nat.sub_self]
    have hcnil : combo = [] := List.length_eq_zero.mp hc0
    subst hcnil
    simpa using hperm
  · rw [hgw]
    exact hdw

/-- Claim C3 witness: concrete instance in the combination branch. -/
theorem C3_output_soundness_witness :
    ('?' ∉ (['b'] : List Char)) ∧ ('?' ∉ (['a'] : List Char)) ∧
    (['a'] : List Char).length ≤ (['?', '?'] : List Char).count '?' ∧
    ∃ L, guess_generator ['?', '?'] ['b'] ['a'] none = Except.ok L ∧
      ∀ g ∈ L,
        g.length = (['?', '?'] : List Char).length ∧
        knownPreserved ['?', '?'] g = true ∧
        (∃ combo, combo.Sublist (['b'] : List Char) ∧
          combo.length = (['?', '?'] : List Char).count '?' - (['a'] : List Char).length ∧
          (unknownSlots ['?', '?'] g).Perm (combo ++ ['a'])) ∧
        ((['?', '?'] : List Char).count '?' = (['a'] : List Char).length →
          (unknownSlots ['?', '?'] g).Perm ['a']) ∧
        dictOk none g = true :=
  ⟨by decide, by decide, by decide, _, rfl,
    C3_output_soundness ['?', '?'] ['b'] ['a'] none
      (by decide) (by decide) (by decide) _ rfl⟩

/-- Claim C4: for every input and every yielded guess, the guess has the
pattern's length and every non-placeholder character of the pattern appears
unchanged at the same position; moreover, over the spec's input domain the
guess is obtained by substituting an ordering of pool letters into the
placeholder positions left-to-right. -/
theorem C4_constraint_preservation (p a pr : List Char)
    (d : Option (List Char → Bool)) :
    ∀ L, guess_generator p a pr d = Except.ok L → ∀ g ∈ L,
      (g.length = p.length ∧
        ∀ (i : Nat) (hp : i < p.length) (hg : i < g.length),
          p.get ⟨i, hp⟩ ≠ '?' → g.get ⟨i, hg⟩ = p.get ⟨i, hp⟩) ∧
      ('?' ∉ a → '?' ∉ pr →
        ∃ w, w.length = p.count '?' ∧ '?' ∉ w ∧ g = substUnknowns p w) := by
  intro L hok g hg
  obtain ⟨hle, w, combo, hsub, hlen, hperm, hgw, _⟩ := exists_pool_of_mem hok hg
  have hkp : knownPreserved p g = true := by
    rw [hgw]
    exact knownPreserved_substitute p w
  refine ⟨⟨knownPreserved_length p g hkp, knownPreserved_get p g hkp⟩, ?_⟩
  intro ha hpr
  have hnoQ := pool_noQ ha hpr hsub hperm
  exact ⟨w, pool_length hle hlen hperm, hnoQ,
    by rw [hgw, substitute_eq_substUnknowns _ _ hnoQ]⟩

/-- Claim C4 witness: concrete instance with one fixed letter. -/
theorem C4_constraint_preservation_witness :
    ∃ L, guess_generator ['a', '?'] [] ['b'] none = Except.ok L ∧
      ∀ g ∈ L,
        (g.length = (['a', '?'] : List Char).length ∧
          ∀ (i : Nat) (hp : i < (['a', '?'] : List Char).length) (hg : i < g.length),
            (['a', '?'] : List Char).get ⟨i, hp⟩ ≠ '?' →
              g.get ⟨i, hg⟩ = (['a', '?'] : List Char).get ⟨i, hp⟩) ∧
        ('?' ∉ ([] : List Char) → '?' ∉ (['b'] : List Char) →
          ∃ w, w.length = (['a', '?'] : List Char).count '?' ∧ '?' ∉ w ∧
            g = substUnknowns ['a', '?'] w) :=
  ⟨_, rfl, C4_constraint_preservation ['a', '?'] [] ['b'] none _ rfl⟩

/-- Claim C5: with a dictionary the generator produces exactly the
dictionary-filtered version of what it produces without one: the result is
the no-dictionary result filtered by membership, so a guess is yielded
under a dictionary if and only if it would be yielded without one and is a
member of the dictionary; in particular the yields form a subset. -/
theorem C5_dictionary_filter (p a pr : List Char) (d : List Char → Bool) :
    guess_generator p a pr (some d)
      = Except.map (fun L => L.filter d) (guess_generator p a pr none) ∧
    ∀ L Lf, guess_generator p a pr none = Except.ok L →
      guess_generator p a pr (some d) = Except.ok Lf →
      ∀ g, (g ∈ Lf ↔ g ∈ L ∧ d g = true) := by
  refine ⟨guess_generator_some_eq_filter p a pr d, ?_⟩
  intro L Lf hnone hsome g
  rw [guess_generator_some_eq_filter p a pr d, hnone] at hsome
  simp only [Except.map] at hsome
  injection hsome with h
  subst h
  exact List.mem_filter

/-- Claim C5 witness: a dictionary containing only one of the two
unfiltered guesses. -/
theorem C5_dictionary_filter_witness :
    guess_generator ['?', '?'] [] ['a', 'b'] none
      = Except.ok [['a', 'b'], ['b', 'a']] ∧
    guess_generator ['?', '?'] [] ['a', 'b'] (some sampleDict)
      = Except.ok [['a', 'b']] ∧
    ((['b', 'a'] : List Char) ∈ [(['a', 'b'] : List Char)] ↔
      (['b', 'a'] : List Char) ∈ [(['a', 'b'] : List Char), ['b', 'a']] ∧
        sampleDict ['b', 'a'] = true) :=
  ⟨by rfl, by rfl,
    (C5_dictionary_filter ['?', '?'] [] ['a', 'b'] sampleDict).2 _ _ (by rfl) (by rfl) ['b', 'a']⟩

/-- Claim C6 counterexample: the pattern contains 'A', a character outside
the alphabet of lowercase letters and the placeholder, yet the generator
raises nothing at all — it runs to exhaustion and yields a guess. -/
theorem C6_counterexample :
    (('A' < 'a' ∨ 'z' < 'A') ∧ 'A' ≠ '?') ∧
    guess_generator ['A', '?'] [] ['a'] none = Except.ok [['A', 'a']] :=
  ⟨by decide, by rfl⟩

/-- Claim C6 amended: `guess_generator` performs no validation of the
pattern's characters and never rejects a malformed pattern; characters
outside the expected alphabet are simply treated as fixed non-placeholder
characters.  The only failure the generator ever surfaces — on any input
whatsoever — is the ValueError raised when the pattern has fewer `'?'`
slots than there are present letters. -/
theorem C6_amended (p a pr : List Char) (d : Option (List Char → Bool)) :
    (∃ e, guess_generator p a pr d = Except.error e) ↔ p.count '?' < pr.length := by
  constructor
  · rintro ⟨e, he⟩
    rcases Nat.lt_trichotomy (p.count '?') pr.length with hlt | heq | hgt
    · exact hlt
    · rw [guess_generator_eq_ok_of_eq heq] at he
      exact absurd he (by simp)
    · rw [guess_generator_eq_ok_of_gt hgt] at he
      exact absurd he (by simp)
  · intro h
    exact ⟨PyError.valueError, guess_generator_eq_error h⟩

/-- Claim C7 counterexample: with available letters "aba" and combination
size 2, the strings "ab" and "ba" both survive the seen-set check and both
have their permutations generated, yet they are equal as multisets of
letters — the dedup is by string value, not by multiset. -/
theorem C7_counterexample :
    (['a', 'b'] : List Char) ∈ survivingCombos ['a', 'b', 'a'] 2 ∧
    (['b', 'a'] : List Char) ∈ survivingCombos ['a', 'b', 'a'] 2 ∧
    (['a', 'b'] : List Char) ≠ ['b', 'a'] ∧
    (['a', 'b'] : List Char).Perm ['b', 'a'] := by
  refine ⟨by decide, by decide, by decide, ?_⟩
  decide

/-- Claim C7 amended: in the selection phase the same combination string is
never processed twice: the surviving combinations are pairwise distinct as
strings and are exactly the index-combinations (length-k subsequences) of
available.  Combinations that are equal as multisets but differ as strings
— arising from repeated letters at non-adjacent positions of available —
all survive and are each permuted; duplicate output is prevented only
later, by the permutation-level seen set. -/
theorem C7_amended (a : List Char) (k : Nat) :
    (survivingCombos a k).Nodup ∧
    ∀ c, c ∈ survivingCombos a k ↔ (c.Sublist a ∧ c.length = k) := by
  constructor
  · rw [survivingCombos]
    exact nodup_dedupKeepFirst _ _
  · intro c
    rw [survivingCombos, mem_dedupKeepFirst, combogen, List.mem_sublistsLen]
    simp

/-- Claim C8 counterexample: a pattern with no placeholder and a non-empty
present string: the generator raises ValueError at the first element
request and yields nothing, instead of yielding the pattern once. -/
theorem C8_counterexample :
    (['a', 'b'] : List Char).count '?' = 0 ∧
    guess_generator ['a', 'b'] [] ['a'] none = Except.error PyError.valueError :=
  ⟨by decide, by rfl⟩

/-- Claim C8 amended: for every pattern containing no placeholder and empty
present letters, with any available letters and dictionary, the generator
yields the pattern itself exactly once, subject to dictionary filtering;
if present is non-empty while the pattern has no placeholder, it instead
raises ValueError and yields nothing. -/
theorem C8_amended (p a : List Char) (d : Option (List Char → Bool))
    (h : p.count '?' = 0) :
    guess_generator p a [] d = Except.ok (if dictOk d p then [p] else []) ∧
    ∀ pr : List Char, pr ≠ [] →
      guess_generator p a pr d = Except.error PyError.valueError := by
  constructor
  · have h0 : p.count '?' = ([] : List Char).length := by simpa using h
    rw [guess_generator_eq_ok_of_eq h0]
    have hperm : permgen ([] : List Char) = [[]] := rfl
    have hsub : substitute p [] = p := rfl
    by_cases hd : dictOk d p = true
    · simp [hperm, yieldLoop, hsub, hd]
    · simp [hperm, yieldLoop, hsub, hd]
  · intro pr hpr
    have hpos : 0 < pr.length := List.length_pos.mpr hpr
    exact guess_generator_eq_error (by rw [h]; exact hpos)

/-- Claim C8 amended witness: a fixed two-letter pattern. -/
theorem C8_amended_witness :
    (['a', 'b'] : List Char).count '?' = 0 ∧
    (guess_generator ['a', 'b'] ['c'] [] none
        = Except.ok (if dictOk none ['a', 'b'] then [['a', 'b']] else []) ∧
      ∀ pr : List Char, pr ≠ [] →
        guess_generator ['a', 'b'] ['c'] pr none = Except.error PyError.valueError) :=
  ⟨by decide, C8_amended ['a', 'b'] ['c'] none (by decide)⟩

/-- Claim C9: when the pattern has more placeholders than there are present
letters and available is empty, no combination exists, so the generator
yields nothing: the produced sequence is empty. -/
theorem C9_empty_available (p pr : List Char) (d : Option (List Char → Bool))
    (h : pr.length < p.count '?') :
    guess_generator p [] pr d = Except.ok [] := by
  rw [guess_generator_eq_ok_of_gt h]
  have hk : p.count '?' - pr.length ≠ 0 := Nat.sub_ne_zero_of_lt h
  have hcombo : combogen [] (p.count '?' - pr.length) = [] := by
    rw [combogen]
    apply List.eq_nil_iff_forall_not_mem.mpr
    intro x hx
    obtain ⟨hsub, hlen⟩ := List.mem_sublistsLen.mp hx
    have hxnil : x = [] := List.sublist_nil.mp hsub
    subst hxnil
    exact hk (by simpa using hlen.symm)
  simp [survivingCombos, hcombo, dedupKeepFirst, yieldLoop]

/-- Claim C9 witness: the spec's example scenario 2. -/
theorem C9_empty_available_witness :
    (['a', 'e', 't'] : List Char).length < (['?', '?', '?', '?', '?'] : List Char).count '?' ∧
    guess_generator ['?', '?', '?', '?', '?'] [] ['a', 'e', 't'] none = Except.ok [] :=
  ⟨by decide, C9_empty_available ['?', '?', '?', '?', '?'] ['a', 'e', 't'] none (by decide)⟩

/-- Claim C10: when present is longer than the number of placeholders, the
generator surfaces ValueError (from the negative combination size) at the
first element request, with nothing yielded — modelled by the error result;
creating the generator object itself does not raise, since Python defers
the generator body. -/
theorem C10_negative_size_error (p a pr : List Char) (d : Option (List Char → Bool))
    (h : p.count '?' < pr.length) :
    guess_generator p a pr d = Except.error PyError.valueError :=
  guess_generator_eq_error h

/-- Claim C10 witness: a placeholder-free pattern with one present letter. -/
theorem C10_negative_size_error_witness :
    (['a', 'b'] : List Char).count '?' < (['a'] : List Char).length ∧
    guess_generator ['a', 'b'] ['z'] ['a'] none = Except.error PyError.valueError :=
  ⟨by decide, C10_negative_size_error ['a', 'b'] ['z'] ['a'] none (by decide)⟩

end Wordle
